import Mathlib

/-!
Shallow embedding of the WinXinCrawler crawl pipeline
(`wechat_spider/spiders/wechat.py`, `wechat_spider/pipelines.py`, `app.py`)
and proofs checking the natural-language specification against it.

Strings are modelled as `List Char`; every Python `re.sub` pass is modelled
as a left-to-right, non-overlapping scan driven by a matcher function that
recognises a match at the head of the remaining input.
-/

namespace WinXinCrawler

/-- whitespace test matching the ASCII part of Python regex `\s` and `str.strip`. -/
def isWS (c : Char) : Bool :=
  c = ' ' || c = '\t' || c = '\n' || c = '\r' || c = '\x0b' || c = '\x0c'

/-- lowercase conversion for ASCII letters, matching Python `str.lower` on ASCII
(non-ASCII characters, in particular Chinese, are left unchanged). -/
def lowerC (c : Char) : Char :=
  if 'A' ≤ c && c ≤ 'Z' then Char.ofNat (c.toNat + 32) else c

/-- case-insensitive single-character match for the `re.IGNORECASE` flag:
the pattern character `p` (always an ASCII lowercase letter or a symbol in the
patterns appearing in `clean_html_content`) matches `c` when `c = p` or `c` is
the uppercase variant of the letter `p`. -/
def charMatchCI (p c : Char) : Bool :=
  c = p || (97 ≤ p.toNat && p.toNat ≤ 122 && c.toNat + 32 = p.toNat)

/-- case-insensitive prefix test. -/
def startsWithCI : List Char → List Char → Bool
  | [], _ => true
  | _ :: _, [] => false
  | p :: ps, c :: cs => charMatchCI p c && startsWithCI ps cs

/-- remainder of the input after the first occurrence of a character
(the behaviour of a lazy `.*?x` regex step). -/
def afterChar (ch : Char) : List Char → Option (List Char)
  | [] => none
  | c :: t => if c = ch then some t else afterChar ch t

/-- remainder of the input after the first case-insensitive occurrence of `pat`
(the behaviour of a lazy `.*?pat` regex step under `re.IGNORECASE`). -/
def afterSeqCI (pat : List Char) : List Char → Option (List Char)
  | [] => if startsWithCI pat [] then some [] else none
  | c :: t =>
    if startsWithCI pat (c :: t) then some ((c :: t).drop pat.length)
    else afterSeqCI pat t

/-- remainder of the input after the first (case-sensitive) occurrence of `pat`. -/
def afterSeq (pat : List Char) : List Char → Option (List Char)
  | [] => if pat.isPrefixOf ([] : List Char) then some [] else none
  | c :: t =>
    if pat.isPrefixOf (c :: t) then some ((c :: t).drop pat.length)
    else afterSeq pat t

/-- fuelled left-to-right, non-overlapping `re.sub` scan.  `M l` returns
`some (replacement, remainder)` when a match starts at the head of `l`;
scanning resumes at the remainder, never inside the replacement, exactly as
`re.sub` does. -/
def substGo (M : List Char → Option (List Char × List Char)) :
    Nat → List Char → List Char
  | 0, l => l
  | _ + 1, [] => []
  | fuel + 1, c :: t =>
    match M (c :: t) with
    | some (rep, r) => rep ++ substGo M fuel r
    | none => c :: substGo M fuel t

/-- a `re.sub` pass over the whole input (the input length is always enough
fuel because every match consumes at least one character). -/
def subst (M : List Char → Option (List Char × List Char)) (l : List Char) :
    List Char :=
  substGo M l.length l

/-- a matcher is shrinking when the remainder after a match is strictly
shorter than the matched input. -/
def Shrinks (M : List Char → Option (List Char × List Char)) : Prop :=
  ∀ l rep r, M l = some (rep, r) → r.length < l.length

theorem substGo_fuel {M : List Char → Option (List Char × List Char)}
    (hM : Shrinks M) :
    ∀ f₁ f₂ l, l.length ≤ f₁ → l.length ≤ f₂ → substGo M f₁ l = substGo M f₂ l := by
  intro f₁
  induction f₁ with
  | zero =>
    intro f₂ l h1 _
    have : l = [] := List.length_eq_zero.mp (Nat.le_zero.mp h1)
    subst this
    cases f₂ <;> rfl
  | succ f ih =>
    intro f₂ l h1 h2
    cases l with
    | nil => cases f₂ <;> rfl
    | cons c t =>
      cases f₂ with
      | zero => exact absurd h2 (by simp)
      | succ g =>
        simp only [substGo]
        cases hmc : M (c :: t) with
        | none =>
          have ht1 : t.length ≤ f := by simp at h1; omega
          have ht2 : t.length ≤ g := by simp at h2; omega
          rw [ih g t ht1 ht2]
        | some p =>
          obtain ⟨rep, r⟩ := p
          have hr : r.length < (c :: t).length := hM _ _ _ hmc
          have hr1 : r.length ≤ f := by simp at h1 hr; omega
          have hr2 : r.length ≤ g := by simp at h2 hr; omega
          show rep ++ substGo M f r = rep ++ substGo M g r
          rw [ih g r hr1 hr2]

theorem subst_nil {M : List Char → Option (List Char × List Char)} :
    subst M [] = [] := rfl

theorem subst_match {M : List Char → Option (List Char × List Char)}
    (hM : Shrinks M) {c : Char} {t rep r : List Char}
    (h : M (c :: t) = some (rep, r)) :
    subst M (c :: t) = rep ++ subst M r := by
  have hr : r.length < (c :: t).length := hM _ _ _ h
  simp only [subst, List.length_cons, substGo, h]
  rw [substGo_fuel hM t.length r.length r (by simp at hr; omega) (le_refl _)]

theorem subst_no {M : List Char → Option (List Char × List Char)}
    {c : Char} {t : List Char}
    (h : M (c :: t) = none) :
    subst M (c :: t) = c :: subst M t := by
  simp only [subst, List.length_cons, substGo, h]

/-- a pass whose matcher only fires on a given head character is the identity
on inputs avoiding that character. -/
theorem subst_id_of_head {M : List Char → Option (List Char × List Char)}
    (d : Char)
    (hhead : ∀ c t, M (c :: t) ≠ none → c = d) :
    ∀ l, d ∉ l → subst M l = l := by
  intro l
  induction l with
  | nil => intro _; rfl
  | cons c t ih =>
    intro hd
    have hc : c ≠ d := fun h => hd (h ▸ List.mem_cons_self c t)
    have hnone : M (c :: t) = none := by
      by_contra h
      exact hc (hhead c t h)
    rw [subst_no hnone, ih (fun h => hd (List.mem_cons_of_mem c h))]

/-! Matchers for the regex passes of `WechatSpider.clean_html_content`
(wechat.py lines 215-240), in source order. -/

/-- matcher for `re.sub(r'<script.*?>.*?</script>', '', _, DOTALL | IGNORECASE)`:
lazy quantifiers take the first `>` after `<script` and the first `</script>`
after that. -/
def scriptM (l : List Char) : Option (List Char × List Char) :=
  if startsWithCI "<script".data l then
    (afterChar '>' (l.drop 7)).bind fun r1 =>
      (afterSeqCI "</script>".data r1).map fun r2 => ([], r2)
  else none

/-- matcher for `re.sub(r'<style.*?>.*?</style>', '', _, DOTALL | IGNORECASE)`. -/
def styleM (l : List Char) : Option (List Char × List Char) :=
  if startsWithCI "<style".data l then
    (afterChar '>' (l.drop 6)).bind fun r1 =>
      (afterSeqCI "</style>".data r1).map fun r2 => ([], r2)
  else none

/-- matcher for `re.sub(r'<!--.*?-->', '', _, DOTALL)` (case-sensitive). -/
def commentM (l : List Char) : Option (List Char × List Char) :=
  if "<!--".data.isPrefixOf l then
    (afterSeq "-->".data (l.drop 4)).map fun r => ([], r)
  else none

/-- matcher for `re.sub(r'<br[^>]*>', '\n', _, IGNORECASE)`: `[^>]*` runs to
the first `>` after `<br`. -/
def brM (l : List Char) : Option (List Char × List Char) :=
  if startsWithCI "<br".data l then
    (afterChar '>' (l.drop 3)).map fun r => (['\n'], r)
  else none

/-- matcher for `re.sub(r'<p[^>]*>', '\n', _, IGNORECASE)`. -/
def pOpenM (l : List Char) : Option (List Char × List Char) :=
  if startsWithCI "<p".data l then
    (afterChar '>' (l.drop 2)).map fun r => (['\n'], r)
  else none

/-- matcher for `re.sub(r'</p>', '\n', _, IGNORECASE)`. -/
def pCloseM (l : List Char) : Option (List Char × List Char) :=
  if startsWithCI "</p>".data l then some (['\n'], l.drop 4) else none

/-- matcher for `re.sub(r'<div[^>]*>', '\n', _, IGNORECASE)`. -/
def divOpenM (l : List Char) : Option (List Char × List Char) :=
  if startsWithCI "<div".data l then
    (afterChar '>' (l.drop 4)).map fun r => (['\n'], r)
  else none

/-- matcher for `re.sub(r'</div>', '\n', _, IGNORECASE)`. -/
def divCloseM (l : List Char) : Option (List Char × List Char) :=
  if startsWithCI "</div>".data l then some (['\n'], l.drop 6) else none

/-- matcher for `re.sub(r'<[^>]+>', '', _)`: a `<` followed by at least one
non-`>` character and then the first `>`. -/
def tagM (l : List Char) : Option (List Char × List Char) :=
  match l with
  | c :: t =>
    if c = '<' then
      if t.head? = some '>' then none
      else (afterChar '>' t).map fun r => (([] : List Char), r)
    else none
  | [] => none

/-- index of the last newline inside a list, if any. -/
def lastNL : List Char → Option Nat
  | [] => none
  | c :: t =>
    match lastNL t with
    | some j => some (j + 1)
    | none => if c = '\n' then some 0 else none

/-- matcher for `re.sub(r'\n\s*\n', '\n\n', _)`: the greedy `\s*` backtracks to
the last newline of the whitespace run following the leading newline. -/
def collapseM (l : List Char) : Option (List Char × List Char) :=
  match l with
  | c :: t =>
    if c = '\n' then
      match lastNL (t.takeWhile isWS) with
      | some j => some (['\n', '\n'], t.drop (j + 1))
      | none => none
    else none
  | [] => none

/-- recursive form of removing trailing whitespace (the right half of
Python `str.strip`). -/
def dropTrailingWS : List Char → List Char
  | [] => []
  | c :: t =>
    let r := dropTrailingWS t
    if r = [] ∧ isWS c then [] else c :: r

/-- Python `str.strip`: leading then trailing whitespace removed. -/
def pyStrip (l : List Char) : List Char :=
  dropTrailingWS (l.dropWhile isWS)

/-- translation of `WechatSpider.clean_html_content` (wechat.py lines 215-240):
script and style blocks and comments removed first, block-level tags mapped to
newlines, remaining tags stripped, whitespace-separated blank runs collapsed to
a single blank line, and the result stripped. -/
def clean_html_content (l : List Char) : List Char :=
  pyStrip (subst collapseM (subst tagM (subst divCloseM (subst divOpenM
    (subst pCloseM (subst pOpenM (subst brM (subst commentM
      (subst styleM (subst scriptM l))))))))))

/-! Basic facts about the scanning helpers. -/

theorem charMatchCI_refl (c : Char) : charMatchCI c c = true := by
  simp [charMatchCI]

theorem charMatchCI_symbol {p c : Char} (hp : p.toNat < 97)
    (h : charMatchCI p c = true) : c = p := by
  simp only [charMatchCI, Bool.or_eq_true, Bool.and_eq_true, decide_eq_true_eq] at h
  rcases h with h | ⟨⟨h1, _⟩, _⟩
  · exact h
  · omega

theorem startsWithCI_length : ∀ {pat l : List Char},
    startsWithCI pat l = true → pat.length ≤ l.length := by
  intro pat
  induction pat with
  | nil => intro l _; simp
  | cons p ps ih =>
    intro l h
    cases l with
    | nil => simp [startsWithCI] at h
    | cons c cs =>
      simp only [startsWithCI, Bool.and_eq_true] at h
      simpa using Nat.succ_le_succ (ih h.2)

theorem startsWithCI_head {p : Char} {ps c cs} :
    startsWithCI (p :: ps) (c :: cs) = true → charMatchCI p c = true := by
  simp only [startsWithCI, Bool.and_eq_true]
  exact fun h => h.1

theorem afterChar_length {ch : Char} : ∀ {l r : List Char},
    afterChar ch l = some r → r.length < l.length := by
  intro l
  induction l with
  | nil => intro r h; simp [afterChar] at h
  | cons c t ih =>
    intro r h
    simp only [afterChar] at h
    split at h
    · cases h; simp
    · exact Nat.lt_trans (ih h) (by simp)

theorem afterSeqCI_length {pat : List Char} : ∀ {l r : List Char},
    afterSeqCI pat l = some r → r.length ≤ l.length := by
  intro l
  induction l with
  | nil =>
    intro r h
    simp only [afterSeqCI] at h
    split at h
    · cases h; simp
    · cases h
  | cons c t ih =>
    intro r h
    simp only [afterSeqCI] at h
    split at h
    · cases h; simp
    · exact Nat.le_trans (ih h) (by simp)

theorem afterSeq_length {pat : List Char} : ∀ {l r : List Char},
    afterSeq pat l = some r → r.length ≤ l.length := by
  intro l
  induction l with
  | nil =>
    intro r h
    simp only [afterSeq] at h
    split at h
    · cases h; simp
    · cases h
  | cons c t ih =>
    intro r h
    simp only [afterSeq] at h
    split at h
    · cases h; simp
    · exact Nat.le_trans (ih h) (by simp)

/-! Shrink lemmas: each pass matcher consumes at least one character. -/

theorem scriptM_shrinks : Shrinks scriptM := by
  intro l rep r h
  simp only [scriptM] at h
  split at h
  · rename_i hsw
    rw [Option.bind_eq_some] at h
    obtain ⟨r1, h1, h2⟩ := h
    rw [Option.map_eq_some'] at h2
    obtain ⟨r2, h2, h3⟩ := h2
    rw [Prod.mk.injEq] at h3
    obtain ⟨-, rfl⟩ := h3
    have e1 := afterChar_length h1
    have e2 := afterSeqCI_length h2
    have e4 : (7 : Nat) ≤ l.length := by
      simpa using startsWithCI_length hsw
    simp only [List.length_drop] at e1
    omega
  · cases h

theorem styleM_shrinks : Shrinks styleM := by
  intro l rep r h
  simp only [styleM] at h
  split at h
  · rename_i hsw
    rw [Option.bind_eq_some] at h
    obtain ⟨r1, h1, h2⟩ := h
    rw [Option.map_eq_some'] at h2
    obtain ⟨r2, h2, h3⟩ := h2
    rw [Prod.mk.injEq] at h3
    obtain ⟨-, rfl⟩ := h3
    have e1 := afterChar_length h1
    have e2 := afterSeqCI_length h2
    have e4 : (6 : Nat) ≤ l.length := by
      simpa using startsWithCI_length hsw
    simp only [List.length_drop] at e1
    omega
  · cases h

theorem commentM_shrinks : Shrinks commentM := by
  intro l rep r h
  simp only [commentM] at h
  split at h
  · rename_i hsw
    rw [Option.map_eq_some'] at h
    obtain ⟨r1, h1, h2⟩ := h
    rw [Prod.mk.injEq] at h2
    obtain ⟨-, rfl⟩ := h2
    have e1 := afterSeq_length h1
    have e3 : (4 : Nat) ≤ l.length := by
      simpa using (List.isPrefixOf_iff_prefix.mp hsw).length_le
    simp only [List.length_drop] at e1
    omega
  · cases h

theorem brM_shrinks : Shrinks brM := by
  intro l rep r h
  simp only [brM] at h
  split at h
  · rw [Option.map_eq_some'] at h
    obtain ⟨r1, h1, h2⟩ := h
    rw [Prod.mk.injEq] at h2
    obtain ⟨-, rfl⟩ := h2
    have e1 := afterChar_length h1
    simp only [List.length_drop] at e1
    omega
  · cases h

theorem pOpenM_shrinks : Shrinks pOpenM := by
  intro l rep r h
  simp only [pOpenM] at h
  split at h
  · rw [Option.map_eq_some'] at h
    obtain ⟨r1, h1, h2⟩ := h
    rw [Prod.mk.injEq] at h2
    obtain ⟨-, rfl⟩ := h2
    have e1 := afterChar_length h1
    simp only [List.length_drop] at e1
    omega
  · cases h

theorem pCloseM_shrinks : Shrinks pCloseM := by
  intro l rep r h
  simp only [pCloseM] at h
  split at h
  · rename_i hsw
    have e3 : (4 : Nat) ≤ l.length := by
      simpa using startsWithCI_length hsw
    rw [Option.some.injEq, Prod.mk.injEq] at h
    obtain ⟨-, rfl⟩ := h
    simp only [List.length_drop]
    omega
  · cases h

theorem divOpenM_shrinks : Shrinks divOpenM := by
  intro l rep r h
  simp only [divOpenM] at h
  split at h
  · rw [Option.map_eq_some'] at h
    obtain ⟨r1, h1, h2⟩ := h
    rw [Prod.mk.injEq] at h2
    obtain ⟨-, rfl⟩ := h2
    have e1 := afterChar_length h1
    simp only [List.length_drop] at e1
    omega
  · cases h

theorem divCloseM_shrinks : Shrinks divCloseM := by
  intro l rep r h
  simp only [divCloseM] at h
  split at h
  · rename_i hsw
    have e3 : (6 : Nat) ≤ l.length := by
      simpa using startsWithCI_length hsw
    rw [Option.some.injEq, Prod.mk.injEq] at h
    obtain ⟨-, rfl⟩ := h
    simp only [List.length_drop]
    omega
  · cases h

theorem tagM_shrinks : Shrinks tagM := by
  intro l rep r h
  match l with
  | [] => cases h
  | c :: t =>
    simp only [tagM] at h
    split at h
    · split at h
      · cases h
      · rw [Option.map_eq_some'] at h
        obtain ⟨r1, h1, h2⟩ := h
        rw [Prod.mk.injEq] at h2
        obtain ⟨-, rfl⟩ := h2
        have e1 := afterChar_length h1
        simp only [List.length_cons]
        omega
    · cases h

theorem collapseM_shrinks : Shrinks collapseM := by
  intro l rep r h
  match l with
  | [] => cases h
  | c :: t =>
    simp only [collapseM] at h
    split at h
    · split at h
      · rw [Option.some.injEq, Prod.mk.injEq] at h
        obtain ⟨-, rfl⟩ := h
        simp only [List.length_drop, List.length_cons]
        omega
      · cases h
    · cases h

/-! Head lemmas: every tag-removal matcher only fires on a `<`. -/

theorem startsWithCI_string_head {pat : List Char} {c : Char} {t : List Char}
    (hs : pat.head? = some '<') (h : startsWithCI pat (c :: t) = true) :
    c = '<' := by
  cases pat with
  | nil => cases hs
  | cons p ps =>
    have hp : p = '<' := by simpa using hs
    subst hp
    exact charMatchCI_symbol (by decide) (startsWithCI_head h)

theorem isPrefixOf_head {p : Char} {ps : List Char} {c : Char} {t : List Char}
    (h : (p :: ps).isPrefixOf (c :: t) = true) : c = p := by
  obtain ⟨u, hu⟩ := List.isPrefixOf_iff_prefix.mp h
  rw [List.cons_append] at hu
  injection hu with h1 _
  exact h1.symm

theorem scriptM_head {c : Char} {t : List Char} (h : scriptM (c :: t) ≠ none) :
    c = '<' := by
  simp only [scriptM] at h
  split at h
  · rename_i hsw
    exact startsWithCI_string_head (by decide) hsw
  · exact absurd rfl h

theorem styleM_head {c : Char} {t : List Char} (h : styleM (c :: t) ≠ none) :
    c = '<' := by
  simp only [styleM] at h
  split at h
  · rename_i hsw
    exact startsWithCI_string_head (by decide) hsw
  · exact absurd rfl h

theorem commentM_head {c : Char} {t : List Char} (h : commentM (c :: t) ≠ none) :
    c = '<' := by
  simp only [commentM] at h
  split at h
  · rename_i hsw
    exact isPrefixOf_head (show ('<' :: "!--".data).isPrefixOf (c :: t) = true from hsw)
  · exact absurd rfl h

theorem brM_head {c : Char} {t : List Char} (h : brM (c :: t) ≠ none) :
    c = '<' := by
  simp only [brM] at h
  split at h
  · rename_i hsw
    exact startsWithCI_string_head (by decide) hsw
  · exact absurd rfl h

theorem pOpenM_head {c : Char} {t : List Char} (h : pOpenM (c :: t) ≠ none) :
    c = '<' := by
  simp only [pOpenM] at h
  split at h
  · rename_i hsw
    exact startsWithCI_string_head (by decide) hsw
  · exact absurd rfl h

theorem pCloseM_head {c : Char} {t : List Char} (h : pCloseM (c :: t) ≠ none) :
    c = '<' := by
  simp only [pCloseM] at h
  split at h
  · rename_i hsw
    exact startsWithCI_string_head (by decide) hsw
  · exact absurd rfl h

theorem divOpenM_head {c : Char} {t : List Char} (h : divOpenM (c :: t) ≠ none) :
    c = '<' := by
  simp only [divOpenM] at h
  split at h
  · rename_i hsw
    exact startsWithCI_string_head (by decide) hsw
  · exact absurd rfl h

theorem divCloseM_head {c : Char} {t : List Char} (h : divCloseM (c :: t) ≠ none) :
    c = '<' := by
  simp only [divCloseM] at h
  split at h
  · rename_i hsw
    exact startsWithCI_string_head (by decide) hsw
  · exact absurd rfl h

theorem tagM_head {c : Char} {t : List Char} (h : tagM (c :: t) ≠ none) :
    c = '<' := by
  simp only [tagM] at h
  split at h
  · assumption
  · exact absurd rfl h

/-- on input containing no `<`, all nine tag-removal passes are the identity
and `clean_html_content` reduces to blank-line collapsing plus strip. -/
theorem clean_no_tags {l : List Char} (h : '<' ∉ l) :
    clean_html_content l = pyStrip (subst collapseM l) := by
  unfold clean_html_content
  rw [subst_id_of_head '<' (fun c t hne => scriptM_head hne) l h,
      subst_id_of_head '<' (fun c t hne => styleM_head hne) l h,
      subst_id_of_head '<' (fun c t hne => commentM_head hne) l h,
      subst_id_of_head '<' (fun c t hne => brM_head hne) l h,
      subst_id_of_head '<' (fun c t hne => pOpenM_head hne) l h,
      subst_id_of_head '<' (fun c t hne => pCloseM_head hne) l h,
      subst_id_of_head '<' (fun c t hne => divOpenM_head hne) l h,
      subst_id_of_head '<' (fun c t hne => divCloseM_head hne) l h,
      subst_id_of_head '<' (fun c t hne => tagM_head hne) l h]

/-! Facts about `lastNL` and the blank-line collapsing pass, building up to
idempotence of the whole normalizer on tag-free text. -/

theorem lastNL_eq_none : ∀ {w : List Char}, lastNL w = none ↔ '\n' ∉ w := by
  intro w
  induction w with
  | nil => simp [lastNL]
  | cons c t ih =>
    cases hm : lastNL t with
    | some j =>
      have ht : '\n' ∈ t := by
        by_contra hnot
        rw [ih.mpr hnot] at hm
        cases hm
      simp only [lastNL, hm]
      constructor
      · intro h; cases h
      · intro h; exact absurd (List.mem_cons_of_mem c ht) h
    | none =>
      have ht : '\n' ∉ t := ih.mp hm
      simp only [lastNL, hm]
      by_cases hc : c = '\n'
      · subst hc
        simp
      · rw [if_neg hc]
        constructor
        · intro _
          simp only [List.mem_cons]
          rintro (h | h)
          · exact hc h.symm
          · exact ht h
        · intro _; rfl

theorem lastNL_some_lt : ∀ {w : List Char} {j : Nat}, lastNL w = some j → j < w.length := by
  intro w
  induction w with
  | nil => intro j h; cases h
  | cons c t ih =>
    intro j h
    cases hm : lastNL t with
    | some j2 =>
      simp only [lastNL, hm] at h
      cases h
      have := ih hm
      simp only [List.length_cons]
      omega
    | none =>
      simp only [lastNL, hm] at h
      split at h
      · cases h; simp
      · cases h

theorem lastNL_some_drop : ∀ {w : List Char} {j : Nat}, lastNL w = some j →
    '\n' ∉ w.drop (j + 1) := by
  intro w
  induction w with
  | nil => intro j h; cases h
  | cons c t ih =>
    intro j h
    cases hm : lastNL t with
    | some j2 =>
      simp only [lastNL, hm] at h
      cases h
      simpa using ih hm
    | none =>
      simp only [lastNL, hm] at h
      split at h
      · cases h
        simpa using lastNL_eq_none.mp hm
      · cases h

theorem lastNL_cons_nl {v : List Char} (h : '\n' ∉ v) :
    lastNL ('\n' :: v) = some 0 := by
  simp [lastNL, lastNL_eq_none.mpr h]

/-- inversion of the collapse matcher at a successful match. -/
theorem collapseM_some {c : Char} {t rep r : List Char}
    (h : collapseM (c :: t) = some (rep, r)) :
    c = '\n' ∧ rep = ['\n', '\n'] ∧
      ∃ j, lastNL (t.takeWhile isWS) = some j ∧ r = t.drop (j + 1) := by
  simp only [collapseM] at h
  split at h
  · rename_i hc
    split at h
    · rename_i j hj
      rw [Option.some.injEq, Prod.mk.injEq] at h
      exact ⟨hc, h.1.symm, j, hj, h.2.symm⟩
    · cases h
  · cases h

theorem collapseM_none_of_ne {c : Char} {t : List Char} (h : c ≠ '\n') :
    collapseM (c :: t) = none := by
  simp [collapseM, h]

theorem collapseM_none_of_noNL {c : Char} {t : List Char}
    (h : '\n' ∉ t.takeWhile isWS) :
    collapseM (c :: t) = none := by
  by_cases hc : c = '\n'
  · simp [collapseM, hc, lastNL_eq_none.mpr h]
  · exact collapseM_none_of_ne hc

theorem takeWhile_append_all {u v : List Char}
    (hu : ∀ a ∈ u, isWS a = true) :
    (u ++ v).takeWhile isWS = u ++ v.takeWhile isWS := by
  induction u with
  | nil => simp
  | cons a u ih =>
    have ha : isWS a = true := hu a (List.mem_cons_self a u)
    rw [List.cons_append, List.takeWhile_cons_of_pos ha,
      ih (fun b hb => hu b (List.mem_cons_of_mem a hb))]
    rfl

theorem dropWhile_head_false {p : Char → Bool} :
    ∀ {l : List Char} {c : Char} {t : List Char},
      l.dropWhile p = c :: t → p c = false := by
  intro l
  induction l with
  | nil => intro c t h; cases h
  | cons a u ih =>
    intro c t h
    rw [List.dropWhile_cons] at h
    split at h
    · exact ih h
    · cases h
      simp_all

theorem takeWhile_dropWhile_nil (p : Char → Bool) (l : List Char) :
    (l.dropWhile p).takeWhile p = [] := by
  cases hd : l.dropWhile p with
  | nil => rfl
  | cons c t =>
    rw [List.takeWhile_cons_of_neg (by simp [dropWhile_head_false hd])]

/-- the remainder after a collapse match has no newline in its leading
whitespace run. -/
theorem collapseM_rem_noNL {c : Char} {t rep r : List Char}
    (h : collapseM (c :: t) = some (rep, r)) :
    '\n' ∉ r.takeWhile isWS := by
  obtain ⟨-, -, j, hj, rfl⟩ := collapseM_some h
  have hjlt := lastNL_some_lt hj
  have hdrop : t.drop (j + 1) =
      (t.takeWhile isWS).drop (j + 1) ++ t.dropWhile isWS := by
    conv_lhs => rw [← List.takeWhile_append_dropWhile (p := isWS) (l := t)]
    rw [List.drop_append_eq_append_drop, Nat.sub_eq_zero_of_le hjlt, List.drop_zero]
  rw [hdrop, takeWhile_append_all
    (fun a ha => List.mem_takeWhile_imp ((List.drop_sublist _ _).subset ha)),
    takeWhile_dropWhile_nil, List.append_nil]
  exact lastNL_some_drop hj

/-- on input whose leading whitespace run has no newline, the collapse pass
passes the whitespace run through and recurses past it. -/
theorem collapse_ws_decomp : ∀ (t : List Char), '\n' ∉ t.takeWhile isWS →
    subst collapseM t = t.takeWhile isWS ++ subst collapseM (t.dropWhile isWS) := by
  intro t
  induction t with
  | nil => intro _; simp [subst_nil]
  | cons c t ih =>
    intro h
    by_cases hw : isWS c = true
    · rw [List.takeWhile_cons_of_pos hw] at h ⊢
      have hc : c ≠ '\n' := by
        intro hc
        exact h (hc ▸ List.mem_cons_self c _)
      have hnl : '\n' ∉ t.takeWhile isWS := fun hm => h (List.mem_cons_of_mem c hm)
      rw [subst_no (collapseM_none_of_ne hc), ih hnl,
        List.dropWhile_cons_of_pos hw, List.cons_append]
    · have hw2 : isWS c = false := by simpa using hw
      rw [List.takeWhile_cons_of_neg (by simp [hw2]),
        List.dropWhile_cons_of_neg (by simp [hw2]), List.nil_append]

theorem collapse_takeWhile_eq : ∀ (t : List Char), '\n' ∉ t.takeWhile isWS →
    (subst collapseM t).takeWhile isWS = t.takeWhile isWS := by
  intro t h
  rw [collapse_ws_decomp t h,
    takeWhile_append_all (fun a ha => List.mem_takeWhile_imp ha)]
  have htail : (subst collapseM (t.dropWhile isWS)).takeWhile isWS = [] := by
    cases hd : t.dropWhile isWS with
    | nil => simp [subst_nil]
    | cons c2 t2 =>
      have hc2 : isWS c2 = false := dropWhile_head_false hd
      have hc2n : c2 ≠ '\n' := by
        intro hc
        subst hc
        simp [isWS] at hc2
      rw [subst_no (collapseM_none_of_ne hc2n),
        List.takeWhile_cons_of_neg (by simp [hc2])]
  rw [htail, List.append_nil]

/-- idempotence of the blank-line collapsing pass. -/
theorem collapse_idem_aux : ∀ (n : Nat) (l : List Char), l.length ≤ n →
    subst collapseM (subst collapseM l) = subst collapseM l := by
  intro n
  induction n with
  | zero =>
    intro l hl
    have : l = [] := List.length_eq_zero.mp (Nat.le_zero.mp hl)
    subst this
    rfl
  | succ n ih =>
    intro l hl
    cases l with
    | nil => rfl
    | cons c t =>
      cases hm : collapseM (c :: t) with
      | none =>
        rw [subst_no hm]
        have ht : t.length ≤ n := by simp at hl; omega
        by_cases hc : c = '\n'
        · subst hc
          have hnl : '\n' ∉ t.takeWhile isWS := by
            intro hcon
            cases hj : lastNL (t.takeWhile isWS) with
            | none => exact (lastNL_eq_none.mp hj) hcon
            | some j =>
              have hsome : collapseM ('\n' :: t) =
                  some (['\n', '\n'], t.drop (j + 1)) := by
                simp [collapseM, hj]
              rw [hsome] at hm
              cases hm
          have h2 : collapseM ('\n' :: subst collapseM t) = none := by
            apply collapseM_none_of_noNL
            rw [collapse_takeWhile_eq t hnl]
            exact hnl
          rw [subst_no h2, ih t ht]
        · rw [subst_no (collapseM_none_of_ne hc), ih t ht]
      | some p =>
        obtain ⟨rep, r⟩ := p
        obtain ⟨hc, hrep, j, hj, hr⟩ := collapseM_some hm
        subst hc hrep hr
        rw [subst_match collapseM_shrinks hm]
        have hrlen : (t.drop (j + 1)).length ≤ n := by
          have := collapseM_shrinks _ _ _ hm
          simp only [List.length_cons] at this hl
          omega
        have hnl : '\n' ∉ (t.drop (j + 1)).takeWhile isWS :=
          collapseM_rem_noNL hm
        have htw : ('\n' :: subst collapseM (t.drop (j + 1))).takeWhile isWS =
            '\n' :: (t.drop (j + 1)).takeWhile isWS := by
          rw [List.takeWhile_cons_of_pos (by simp [isWS]),
            collapse_takeWhile_eq _ hnl]
        have h2 : collapseM ('\n' :: ('\n' :: subst collapseM (t.drop (j + 1)))) =
            some (['\n', '\n'], subst collapseM (t.drop (j + 1))) := by
          simp only [collapseM, if_pos rfl, htw, lastNL_cons_nl hnl]
          rfl
        show subst collapseM ('\n' :: ('\n' :: subst collapseM (t.drop (j + 1)))) =
          ['\n', '\n'] ++ subst collapseM (t.drop (j + 1))
        rw [subst_match collapseM_shrinks h2, ih _ hrlen]

theorem collapse_idem (l : List Char) :
    subst collapseM (subst collapseM l) = subst collapseM l :=
  collapse_idem_aux l.length l le_rfl

theorem collapseM_none_noNL {t : List Char}
    (hm : collapseM ('\n' :: t) = none) : '\n' ∉ t.takeWhile isWS := by
  intro hcon
  cases hj : lastNL (t.takeWhile isWS) with
  | none => exact (lastNL_eq_none.mp hj) hcon
  | some j =>
    have hsome : collapseM ('\n' :: t) = some (['\n', '\n'], t.drop (j + 1)) := by
      simp [collapseM, hj]
    rw [hsome] at hm
    cases hm

/-- a collapse fixpoint starting with a match decomposes as two newlines
followed by a collapse image. -/
theorem collapse_fix_cons {c : Char} {t rep r : List Char}
    (hm : collapseM (c :: t) = some (rep, r))
    (hfix : subst collapseM (c :: t) = c :: t) :
    c = '\n' ∧ t = '\n' :: subst collapseM r := by
  obtain ⟨hc, hrep, j, hj, hr⟩ := collapseM_some hm
  subst hc hrep
  rw [subst_match collapseM_shrinks hm] at hfix
  refine ⟨rfl, ?_⟩
  have : '\n' :: '\n' :: subst collapseM r = '\n' :: t := hfix
  injection this with _ h2
  exact h2.symm

/-- fixpoints of the collapse pass are preserved by removing leading
whitespace. -/
theorem collapse_fix_dropWhile : ∀ (n : Nat) (l : List Char), l.length ≤ n →
    subst collapseM l = l →
    subst collapseM (l.dropWhile isWS) = l.dropWhile isWS := by
  intro n
  induction n with
  | zero =>
    intro l hl _
    have : l = [] := List.length_eq_zero.mp (Nat.le_zero.mp hl)
    subst this
    rfl
  | succ n ih =>
    intro l hl hfix
    cases l with
    | nil => rfl
    | cons c t =>
      by_cases hw : isWS c = true
      · rw [List.dropWhile_cons_of_pos hw]
        cases hm : collapseM (c :: t) with
        | none =>
          rw [subst_no hm] at hfix
          have hfix2 : subst collapseM t = t := by injection hfix
          exact ih t (by simp at hl; omega) hfix2
        | some p =>
          obtain ⟨rep, r⟩ := p
          obtain ⟨hc, ht⟩ := collapse_fix_cons hm hfix
          subst hc
          rw [ht, List.dropWhile_cons_of_pos (by simp [isWS])]
          have hfs : subst collapseM (subst collapseM r) = subst collapseM r :=
            collapse_idem r
          have hslen : (subst collapseM r).length ≤ n := by
            have : t.length = (subst collapseM r).length + 1 := by
              rw [ht]; simp
            simp at hl
            omega
          exact ih _ hslen hfs
      · rw [List.dropWhile_cons_of_neg (by simp [hw])]
        exact hfix

theorem dropTrailingWS_front : ∀ l : List Char, dropTrailingWS l <+: l := by
  intro l
  induction l with
  | nil => exact List.nil_prefix
  | cons c t ih =>
    simp only [dropTrailingWS]
    split
    · exact List.nil_prefix
    · exact List.cons_prefix_cons.mpr ⟨rfl, ih⟩

theorem takeWhile_prefix_mono {p : Char → Bool} :
    ∀ {u v : List Char}, u <+: v → u.takeWhile p <+: v.takeWhile p := by
  intro u
  induction u with
  | nil => intro v _; exact List.nil_prefix
  | cons a u ih =>
    intro v huv
    cases v with
    | nil => exact absurd huv (by simp)
    | cons b v2 =>
      obtain ⟨hab, huv2⟩ := List.cons_prefix_cons.mp huv
      subst hab
      by_cases hp : p a = true
      · rw [List.takeWhile_cons_of_pos hp, List.takeWhile_cons_of_pos hp]
        exact List.cons_prefix_cons.mpr ⟨rfl, ih huv2⟩
      · rw [List.takeWhile_cons_of_neg (by simp [hp])]
        exact List.nil_prefix

/-- fixpoints of the collapse pass are preserved by removing trailing
whitespace. -/
theorem collapse_fix_dropTrailing : ∀ (n : Nat) (l : List Char), l.length ≤ n →
    subst collapseM l = l →
    subst collapseM (dropTrailingWS l) = dropTrailingWS l := by
  intro n
  induction n with
  | zero =>
    intro l hl _
    have : l = [] := List.length_eq_zero.mp (Nat.le_zero.mp hl)
    subst this
    rfl
  | succ n ih =>
    intro l hl hfix
    cases l with
    | nil => rfl
    | cons c t =>
      cases hm : collapseM (c :: t) with
      | none =>
        rw [subst_no hm] at hfix
        have hfix2 : subst collapseM t = t := by injection hfix
        have hdtfix : subst collapseM (dropTrailingWS t) = dropTrailingWS t :=
          ih t (by simp at hl; omega) hfix2
        simp only [dropTrailingWS]
        split
        · rfl
        · have hnone2 : collapseM (c :: dropTrailingWS t) = none := by
            by_cases hc : c = '\n'
            · subst hc
              apply collapseM_none_of_noNL
              exact fun hmem => (collapseM_none_noNL hm)
                ((takeWhile_prefix_mono (dropTrailingWS_front t)).sublist.subset hmem)
            · exact collapseM_none_of_ne hc
          rw [subst_no hnone2, hdtfix]
      | some p =>
        obtain ⟨rep, r⟩ := p
        obtain ⟨hc, ht⟩ := collapse_fix_cons hm hfix
        subst hc
        have hfs : subst collapseM (subst collapseM r) = subst collapseM r :=
          collapse_idem r
        have hslen : (subst collapseM r).length ≤ n := by
          have : t.length = (subst collapseM r).length + 1 := by
            rw [ht]; simp
          simp at hl
          omega
        have hnl : '\n' ∉ (subst collapseM r).takeWhile isWS := by
          have h1 : '\n' ∉ r.takeWhile isWS := collapseM_rem_noNL hm
          rw [collapse_takeWhile_eq r h1]
          exact h1
        subst ht
        by_cases hds : dropTrailingWS (subst collapseM r) = []
        · have h1 : dropTrailingWS ('\n' :: subst collapseM r) = [] := by
            simp only [dropTrailingWS]
            rw [if_pos ⟨hds, by simp [isWS]⟩]
          have h2 : dropTrailingWS ('\n' :: '\n' :: subst collapseM r) = [] := by
            simp only [dropTrailingWS]
            rw [if_pos ⟨h1, by simp [isWS]⟩]
          rw [h2]
          rfl
        · have h1 : dropTrailingWS ('\n' :: subst collapseM r) =
              '\n' :: dropTrailingWS (subst collapseM r) := by
            simp only [dropTrailingWS]
            rw [if_neg (fun hand => hds hand.1)]
          have h2 : dropTrailingWS ('\n' :: '\n' :: subst collapseM r) =
              '\n' :: '\n' :: dropTrailingWS (subst collapseM r) := by
            have hstep : dropTrailingWS ('\n' :: '\n' :: subst collapseM r) =
                if dropTrailingWS ('\n' :: subst collapseM r) = [] ∧ isWS '\n' = true
                then [] else '\n' :: dropTrailingWS ('\n' :: subst collapseM r) := rfl
            rw [hstep, h1, if_neg (fun hand => (List.cons_ne_nil _ _) hand.1)]
          rw [h2]
          have hnl2 : '\n' ∉ (dropTrailingWS (subst collapseM r)).takeWhile isWS :=
            fun hmem => hnl
              ((takeWhile_prefix_mono (dropTrailingWS_front _)).sublist.subset hmem)
          have hm2 : collapseM ('\n' :: ('\n' :: dropTrailingWS (subst collapseM r))) =
              some (['\n', '\n'], dropTrailingWS (subst collapseM r)) := by
            simp only [collapseM, if_pos rfl,
              List.takeWhile_cons_of_pos (show isWS '\n' = true by simp [isWS]),
              lastNL_cons_nl hnl2]
            rfl
          rw [subst_match collapseM_shrinks hm2, ih _ hslen hfs]
          rfl

/-- fixpoints of the collapse pass are preserved by `str.strip`. -/
theorem collapse_fix_pyStrip {l : List Char} (h : subst collapseM l = l) :
    subst collapseM (pyStrip l) = pyStrip l := by
  unfold pyStrip
  exact collapse_fix_dropTrailing (l.dropWhile isWS).length _ le_rfl
    (collapse_fix_dropWhile l.length l le_rfl h)

theorem dropTrailingWS_idem : ∀ l : List Char,
    dropTrailingWS (dropTrailingWS l) = dropTrailingWS l := by
  intro l
  induction l with
  | nil => rfl
  | cons c t ih =>
    by_cases hcond : dropTrailingWS t = [] ∧ isWS c = true
    · have h1 : dropTrailingWS (c :: t) = [] := by
        simp only [dropTrailingWS]
        rw [if_pos hcond]
      rw [h1]
      rfl
    · have h1 : dropTrailingWS (c :: t) = c :: dropTrailingWS t := by
        simp only [dropTrailingWS]
        rw [if_neg hcond]
      rw [h1]
      have h2 : dropTrailingWS (c :: dropTrailingWS t) =
          if dropTrailingWS (dropTrailingWS t) = [] ∧ isWS c = true
          then [] else c :: dropTrailingWS (dropTrailingWS t) := rfl
      rw [h2, ih, if_neg hcond]

theorem pyStrip_idem (l : List Char) : pyStrip (pyStrip l) = pyStrip l := by
  unfold pyStrip
  have hdw : (dropTrailingWS (l.dropWhile isWS)).dropWhile isWS =
      dropTrailingWS (l.dropWhile isWS) := by
    cases hd : l.dropWhile isWS with
    | nil => rfl
    | cons c t =>
      have hc : isWS c = false := dropWhile_head_false hd
      have hcond : ¬(dropTrailingWS t = [] ∧ isWS c = true) := by
        rintro ⟨-, hw⟩
        rw [hw] at hc
        cases hc
      have h1 : dropTrailingWS (c :: t) = c :: dropTrailingWS t := by
        simp only [dropTrailingWS]
        rw [if_neg hcond]
      rw [h1, List.dropWhile_cons_of_neg (by simp [hc])]
  rw [hdw, dropTrailingWS_idem]

/-- characters of the collapse output come from the input or are newlines. -/
theorem mem_collapse_aux : ∀ (n : Nat) (l : List Char), l.length ≤ n →
    ∀ a ∈ subst collapseM l, a ∈ l ∨ a = '\n' := by
  intro n
  induction n with
  | zero =>
    intro l hl a ha
    have : l = [] := List.length_eq_zero.mp (Nat.le_zero.mp hl)
    subst this
    cases ha
  | succ n ih =>
    intro l hl a ha
    cases l with
    | nil => cases ha
    | cons c t =>
      cases hm : collapseM (c :: t) with
      | none =>
        rw [subst_no hm] at ha
        rcases List.mem_cons.mp ha with rfl | ha2
        · exact Or.inl (List.mem_cons_self _ _)
        · rcases ih t (by simp at hl; omega) a ha2 with h | h
          · exact Or.inl (List.mem_cons_of_mem c h)
          · exact Or.inr h
      | some p =>
        obtain ⟨rep, r⟩ := p
        obtain ⟨hc, hrep, j, hj, hr⟩ := collapseM_some hm
        subst hc hrep hr
        rw [subst_match collapseM_shrinks hm] at ha
        rcases List.mem_append.mp ha with ha2 | ha2
        · right
          rcases List.mem_cons.mp ha2 with rfl | ha3
          · rfl
          · rcases List.mem_cons.mp ha3 with rfl | ha4
            · rfl
            · cases ha4
        · have hlen : (t.drop (j + 1)).length ≤ n := by
            have := collapseM_shrinks _ _ _ hm
            simp only [List.length_cons] at this hl
            omega
          rcases ih _ hlen a ha2 with h | h
          · exact Or.inl (List.mem_cons_of_mem _
              ((List.drop_sublist _ _).subset h))
          · exact Or.inr h

theorem not_lt_mem_collapse {l : List Char} (h : '<' ∉ l) :
    '<' ∉ subst collapseM l := by
  intro hm
  rcases mem_collapse_aux l.length l le_rfl _ hm with h2 | h2
  · exact h h2
  · cases h2

theorem mem_pyStrip {l : List Char} {a : Char} (ha : a ∈ pyStrip l) : a ∈ l :=
  (List.dropWhile_suffix isWS).sublist.subset
    ((dropTrailingWS_front _).sublist.subset ha)

/-- idempotence of the normalizer on tag-free input (modelled as input
containing no `<`). -/
theorem clean_idem {l : List Char} (h : '<' ∉ l) :
    clean_html_content (clean_html_content l) = clean_html_content l := by
  rw [clean_no_tags h]
  have h2 : '<' ∉ pyStrip (subst collapseM l) :=
    fun hm => (not_lt_mem_collapse h) (mem_pyStrip hm)
  rw [clean_no_tags h2, collapse_fix_pyStrip (collapse_idem l), pyStrip_idem]

/-! Excision of a script block by the first normalizer pass. -/

theorem startsWithCI_self_append : ∀ (pat l : List Char),
    startsWithCI pat (pat ++ l) = true := by
  intro pat
  induction pat with
  | nil => intro l; rfl
  | cons p ps ih =>
    intro l
    simp only [List.cons_append, startsWithCI, charMatchCI_refl,
      Bool.true_and]
    exact ih l

theorem afterSeqCI_through {pat : List Char} (hpat : pat.head? = some '<') :
    ∀ (b rest : List Char), '<' ∉ b →
      afterSeqCI pat (b ++ (pat ++ rest)) = some rest := by
  intro b
  induction b with
  | nil =>
    intro rest _
    cases pat with
    | nil => cases hpat
    | cons p ps =>
      show afterSeqCI (p :: ps) (p :: (ps ++ rest)) = some rest
      have hsw : startsWithCI (p :: ps) (p :: (ps ++ rest)) = true :=
        startsWithCI_self_append (p :: ps) rest
      simp only [afterSeqCI, hsw, if_true]
      rw [Option.some.injEq]
      exact List.drop_left (p :: ps) rest
  | cons c b' ih =>
    intro rest hb
    have hc : c ≠ '<' := fun h => hb (h ▸ List.mem_cons_self c b')
    have hsw : startsWithCI pat (c :: (b' ++ (pat ++ rest))) = false := by
      cases hv : startsWithCI pat (c :: (b' ++ (pat ++ rest))) with
      | false => rfl
      | true => exact absurd (startsWithCI_string_head hpat hv) hc
    show afterSeqCI pat (c :: (b' ++ (pat ++ rest))) = some rest
    simp only [afterSeqCI, hsw, Bool.false_eq_true, if_false]
    exact ih rest (fun h => hb (List.mem_cons_of_mem c h))

/-- the script matcher fires on a whole `<script>body</script>` block whose
body contains no `<`, and its remainder is exactly what follows the block. -/
theorem scriptM_block {b rest : List Char} (hb : '<' ∉ b) :
    scriptM ("<script>".data ++ (b ++ ("</script>".data ++ rest))) =
      some ([], rest) := by
  have hshape : "<script>".data ++ (b ++ ("</script>".data ++ rest)) =
      "<script".data ++ ('>' :: (b ++ ("</script>".data ++ rest))) := rfl
  have hsw : startsWithCI "<script".data
      ("<script>".data ++ (b ++ ("</script>".data ++ rest))) = true := by
    rw [hshape]
    exact startsWithCI_self_append _ _
  have hdrop : ("<script>".data ++ (b ++ ("</script>".data ++ rest))).drop 7 =
      '>' :: (b ++ ("</script>".data ++ rest)) := rfl
  simp only [scriptM, hsw, if_true, hdrop]
  have hac : afterChar '>' ('>' :: (b ++ ("</script>".data ++ rest))) =
      some (b ++ ("</script>".data ++ rest)) := by
    simp [afterChar]
  rw [hac]
  simp only [Option.some_bind]
  rw [afterSeqCI_through (by decide) b rest hb]
  rfl

/-- the whole normalizer erases a leading script block (body without `<`):
the output is exactly the normalization of what follows the block. -/
theorem clean_script_excision (b rest : List Char) (hb : '<' ∉ b) :
    clean_html_content ("<script>".data ++ (b ++ ("</script>".data ++ rest))) =
      clean_html_content rest := by
  unfold clean_html_content
  have h1 : subst scriptM ("<script>".data ++ (b ++ ("</script>".data ++ rest))) =
      subst scriptM rest := by
    have hcons : "<script>".data ++ (b ++ ("</script>".data ++ rest)) =
        '<' :: ("script>".data ++ (b ++ ("</script>".data ++ rest))) := rfl
    rw [hcons]
    rw [subst_match scriptM_shrinks (hcons ▸ scriptM_block hb)]
    rfl
  rw [h1]

/-! Data model: the scrapy item (`wechat_spider/items.py`) restricted to the
fields the pipeline stages read, and the pipeline stages themselves
(`wechat_spider/pipelines.py`).  A Python value that may be an int or a raw
string (the statistics fields) is modelled by `PyVal`; an unset or empty
string field is modelled as `""` (both are falsy in the source's
`item.get(...)` truthiness checks). -/

inductive PyVal
  | int (n : Int)
  | str (s : String)
deriving DecidableEq

/-- Python truthiness of a `PyVal`. -/
def pyTruthy : PyVal → Bool
  | .int n => n ≠ 0
  | .str s => s ≠ ""

/-- Python `int(x)` coercion (whitespace-tolerant), `none` when it raises. -/
def pyToInt : PyVal → Option Int
  | .int n => some n
  | .str s => s.trim.toInt?

structure WxItem where
  title : String
  content : String
  description : String
  url : String
  article_id : String
  read_count : PyVal
  like_count : PyVal
  comment_count : PyVal
  images : List String
  videos : List String
  crawl_time : Nat
deriving DecidableEq

/-- outcome of one pipeline stage on one item: pass the (possibly mutated)
item on, or abort the chain with `DropItem`. -/
inductive StageResult
  | ok (item : WxItem)
  | dropped (msg : String)
deriving DecidableEq

/-- translation of `ValidationPipeline.process_item` (pipelines.py lines
155-167): each required field is checked for Python falsiness — no trimming
is applied. -/
def validation_process_item (item : WxItem) : StageResult :=
  if item.title = "" then .dropped "Missing title in item"
  else if item.content = "" then .dropped "Missing content in item"
  else if item.url = "" then .dropped "Missing url in item"
  else .ok item

/-- Python `str.split()`: maximal non-whitespace runs. -/
def pyWords (l : List Char) : List (List Char) :=
  match hd : l.dropWhile isWS with
  | [] => []
  | c :: t =>
    (c :: t.takeWhile (fun x => !isWS x)) ::
      pyWords (t.dropWhile (fun x => !isWS x))
termination_by l.length
decreasing_by
  have h1 : (l.dropWhile isWS).length ≤ l.length :=
    (List.dropWhile_suffix isWS).sublist.length_le
  rw [hd] at h1
  have h2 : (t.dropWhile (fun x => !isWS x)).length ≤ t.length :=
    (List.dropWhile_suffix _).sublist.length_le
  simp only [List.length_cons] at h1
  omega

/-- translation of `CleaningPipeline.process_item` (pipelines.py lines
170-194): trim `title`/`description`, collapse whitespace runs in `content`
to single spaces via `' '.join(content.split())`, and coerce the statistics
fields with `int(...)` falling back to 0 — each step only applied when the
field is truthy. -/
def cleaning_process_item (item : WxItem) : StageResult :=
  let i1 := if item.title ≠ "" then { item with title := item.title.trim } else item
  let i2 :=
    if i1.content ≠ "" then
      { i1 with content :=
          String.intercalate " " ((pyWords i1.content.data).map (fun w => String.mk w)) }
    else i1
  let i3 :=
    if i2.description ≠ "" then { i2 with description := i2.description.trim }
    else i2
  let coerce := fun v => if pyTruthy v then PyVal.int ((pyToInt v).getD 0) else v
  .ok { i3 with
    read_count := coerce i3.read_count,
    like_count := coerce i3.like_count,
    comment_count := coerce i3.comment_count }

/-- shared external state of the two sinks plus the error logs the pipelines
write through `spider.logger.error`. -/
structure SinkState where
  store : List WxItem
  searchIdx : List WxItem
  mongoLog : List String
  esLog : List String
deriving DecidableEq

/-- translation of `MongoPipeline.process_item` (pipelines.py lines 39-60).
The duplicate check runs inside the same `try` whose blanket
`except Exception` also catches the `DropItem` it raises: a duplicate is
therefore logged through `spider.logger.error('Error saving to MongoDB: ...')`
and re-raised wrapped as `DropItem('Error saving item to MongoDB: ...')`.
A fresh `article_id` is inserted and the item returned. -/
def mongo_process_item (st : SinkState) (item : WxItem) :
    SinkState × StageResult :=
  match st.store.find? (fun x => x.article_id = item.article_id) with
  | some _ =>
    ({ st with mongoLog := st.mongoLog ++
        ["Error saving to MongoDB: Duplicate item found: " ++ item.title] },
     .dropped ("Error saving item to MongoDB: Duplicate item found: " ++ item.title))
  | none => ({ st with store := st.store ++ [item] }, .ok item)

/-- upsert semantics of `es.index(index=..., id=doc_id, body=doc)`: the
document with the same id is overwritten. -/
def esUpsert (idx : List WxItem) (item : WxItem) : List WxItem :=
  idx.filter (fun x => x.article_id ≠ item.article_id) ++ [item]

/-- translation of `ElasticsearchPipeline.process_item` (pipelines.py lines
126-152).  The outcome of the `es.index` call is a parameter; on failure the
`except` logs the error and returns the item unchanged — the item is never
dropped. -/
def es_process_item (st : SinkState) (item : WxItem)
    (indexCall : Except String Unit) : SinkState × StageResult :=
  match indexCall with
  | .ok _ => ({ st with searchIdx := esUpsert st.searchIdx item }, .ok item)
  | .error e =>
    ({ st with esLog := st.esLog ++ ["Error indexing in Elasticsearch: " ++ e] },
     .ok item)

inductive Stage
  | validation
  | cleaning
  | mongo
  | es
deriving DecidableEq

def runStage (st : SinkState) (item : WxItem) (indexCall : Except String Unit) :
    Stage → SinkState × StageResult
  | .validation => (st, validation_process_item item)
  | .cleaning => (st, cleaning_process_item item)
  | .mongo => mongo_process_item st item
  | .es => es_process_item st item indexCall

/-- scrapy item-pipeline semantics: stages run in priority order and a
`DropItem` raised by any stage stops the chain for that item. -/
def runChain (stages : List Stage) (st : SinkState) (item : WxItem)
    (indexCall : Except String Unit) : SinkState × StageResult :=
  match stages with
  | [] => (st, .ok item)
  | s :: rest =>
    match runStage st item indexCall s with
    | (st2, .ok item2) => runChain rest st2 item2 indexCall
    | (st2, .dropped m) => (st2, .dropped m)

/-- the `ITEM_PIPELINES` setting installed by
`CrawlerManager._crawl_articles` (app.py lines 56-60), in priority order:
`MongoPipeline` (300) then `ElasticsearchPipeline` (400) — no validation and
no cleaning stage. -/
def appItemPipelines : List Stage := [.mongo, .es]

/-! Spider model (`wechat_spider/spiders/wechat.py`). -/

/-- pagination step of `WechatSpider.parse_article_list` (wechat.py lines
118-126): `current_count = begin + len(articles)`; a next page is requested
at `begin = current_count` exactly when `current_count < total_count`. -/
def nextBegin (b n total : Nat) : Option Nat :=
  if b + n < total then some (b + n) else none

/-- offsets of the listing requests actually issued, starting at `b`, when
the page at offset `x` returns `pageLen x` entries and every response reports
the same `total_page_cnt = total`.  A page is processed (and a next page
possibly requested) only when its entry list is non-empty, matching the
`data.get('success') and data.get('app_msg_list')` guard. -/
def crawlBegins (pageLen : Nat → Nat) (total : Nat) (b : Nat) : List Nat :=
  if h : 0 < pageLen b ∧ b + pageLen b < total then
    b :: crawlBegins pageLen total (b + pageLen b)
  else [b]
termination_by total - b
decreasing_by
  obtain ⟨h1, h2⟩ := h
  omega

/-- substring test, Python `needle in hay`. -/
def isSub (needle : List Char) : List Char → Bool
  | [] => needle.isEmpty
  | c :: t => needle.isPrefixOf (c :: t) || isSub needle t

/-- the fixed ordered category table of `WechatSpider.categorize_article`
(wechat.py lines 298-306); Python dicts preserve insertion order. -/
def categoriesTable : List (String × List String) :=
  [("技术", ["技术", "编程", "开发", "代码", "算法", "框架", "工具"]),
   ("生活", ["生活", "日常", "经验", "分享", "故事", "感悟"]),
   ("教育", ["教育", "学习", "教程", "培训", "知识", "技能"]),
   ("商业", ["商业", "创业", "投资", "营销", "管理", "职场"]),
   ("文化", ["文化", "艺术", "历史", "文学", "音乐", "电影"]),
   ("健康", ["健康", "医疗", "运动", "养生", "心理"]),
   ("科技", ["科技", "科学", "创新", "未来", "人工智能", "互联网"])]

/-- the double loop of `categorize_article`: return the first category any of
whose keywords occurs in the text. -/
def firstCat : List (String × List String) → List Char → Option String
  | [], _ => none
  | (cat, kws) :: rest, text =>
    if kws.any (fun k => isSub k.data text) then some cat
    else firstCat rest text

/-- translation of `WechatSpider.categorize_article` (wechat.py lines
294-313): lowercase `title + ' ' + description`, scan the table in order,
default `'其他'`. -/
def categorize_article (title description : String) : String :=
  let text := ((title ++ " " ++ description).data).map lowerC
  (firstCat categoriesTable text).getD "其他"

/-- first-match characterization stated with `List.find?`, following the
spec's description of the classifier (first category in fixed table order
whose any keyword is a substring). -/
def specFirstCategory (title description : String) : Option String :=
  let text := ((title ++ " " ++ description).data).map lowerC
  (categoriesTable.find?
    (fun p => p.2.any (fun k => isSub k.data text))).map Prod.fst

/-- outcome of fetching and parsing one article detail page inside
`parse_article_content`: a content element was found and parsed, no selector
matched, or an exception was raised inside the `try`. -/
inductive ContentOutcome
  | found (rawHtml : String) (imgs vids : List String)
  | noContent
  | exn
deriving DecidableEq

/-- translation of `WechatSpider.parse_article_content` (wechat.py lines
173-213): on success the content is normalized and media filled in and
`crawl_time` updated; when no selector matches only `crawl_time` is updated;
on an exception the `except` branch still yields the item unchanged.  In
every branch exactly the one item is yielded. -/
def parse_article_content (item : WxItem) (o : ContentOutcome) (now : Nat) :
    List WxItem :=
  match o with
  | .found raw imgs vids =>
    [{ item with
        content := String.mk (clean_html_content raw.data),
        images := imgs,
        videos := vids,
        crawl_time := now }]
  | .noContent => [{ item with crawl_time := now }]
  | .exn => [item]

/-! Crawl coordinator model (`app.py`). -/

structure ManagerState where
  is_running : Bool
  progress : ℚ
  total_articles : Nat
  crawled_articles : Nat
deriving DecidableEq

structure ProgressEvent where
  progress : ℚ
  crawled : Nat
  total : Nat
  current_article : String
  status : String
deriving DecidableEq

/-- `CrawlerManager.__init__` (app.py lines 31-36). -/
def initManager : ManagerState :=
  { is_running := false, progress := 0, total_articles := 0, crawled_articles := 0 }

/-- the counter resets of `CrawlerManager.start_crawling` (app.py lines
38-52); note `total_articles` is not reset and is never assigned anywhere
else in the program. -/
def start_crawling (m : ManagerState) : ManagerState :=
  { m with is_running := true, progress := 0, crawled_articles := 0 }

/-- translation of `SocketIOWechatSpider.process_item` (app.py lines 70-83):
increment the crawled counter, recompute
`progress = crawled / max(total_articles, 1) * 100`, and emit a `crawling`
progress event. -/
def spider_process_item (m : ManagerState) (title : String) :
    ManagerState × ProgressEvent :=
  let crawled := m.crawled_articles + 1
  let p : ℚ := (crawled : ℚ) / ((max m.total_articles 1 : Nat) : ℚ) * 100
  ({ m with crawled_articles := crawled, progress := p },
   { progress := p, crawled := crawled, total := m.total_articles,
     current_article := title, status := "crawling" })

/-- per-item event emission folded over a run. -/
def runItems (m : ManagerState) : List String → ManagerState × List ProgressEvent
  | [] => (m, [])
  | t :: ts =>
    let r1 := spider_process_item m t
    let r2 := runItems r1.1 ts
    (r2.1, r1.2 :: r2.2)

/-- the final event emitted after `process.start()` returns (app.py lines
88-94); the source's completed event carries no `current_article` field,
modelled as `""`. -/
def completedEvent (m : ManagerState) : ProgressEvent :=
  { progress := 100, crawled := m.crawled_articles, total := m.total_articles,
    current_article := "", status := "completed" }

/-- the full event sequence of a run over the given article titles with no
failures, from a freshly constructed manager. -/
def crawlRunEvents (titles : List String) : List ProgressEvent :=
  let m0 := start_crawling initManager
  let r := runItems m0 titles
  r.2 ++ [completedEvent r.1]

/-! Shared concrete inputs for witnesses and counterexamples. -/

/-- item builder with the statistics fields integers and no media. -/
def mkItem (t c u aid : String) : WxItem :=
  { title := t, content := c, description := "", url := u, article_id := aid,
    read_count := .int 0, like_count := .int 0, comment_count := .int 0,
    images := [], videos := [], crawl_time := 0 }

def emptySinks : SinkState := ⟨[], [], [], []⟩

/-- supporting lemma for the classifier: the double loop returns the first
table entry whose keyword list has a match, phrased with `List.find?`. -/
theorem firstCat_eq_find? :
    ∀ (table : List (String × List String)) (text : List Char),
      firstCat table text =
        (table.find? (fun p => p.2.any (fun k => isSub k.data text))).map
          Prod.fst := by
  intro table text
  induction table with
  | nil => rfl
  | cons hd rest ih =>
    obtain ⟨cat, kws⟩ := hd
    by_cases h : (kws.any fun k => isSub k.data text) = true
    · simp only [firstCat, if_pos h]
      rw [List.find?_cons_of_pos _ (by exact h)]
      rfl
    · simp only [firstCat, if_neg h]
      rw [List.find?_cons_of_neg _ (by simpa using h)]
      exact ih

/-- supporting lemma for pagination: the listing iteration issues at most
`total - b + 1` page requests. -/
theorem crawlBegins_length (pageLen : Nat → Nat) (total : Nat) :
    ∀ (k b : Nat), total - b ≤ k →
      (crawlBegins pageLen total b).length ≤ total - b + 1 := by
  intro k
  induction k with
  | zero =>
    intro b hb
    rw [crawlBegins]
    split
    · rename_i h
      exact absurd h.2 (by omega)
    · simp
  | succ k ih =>
    intro b hb
    rw [crawlBegins]
    split
    · rename_i h
      obtain ⟨h1, h2⟩ := h
      have := ih (b + pageLen b) (by omega)
      simp only [List.length_cons]
      omega
    · simp

/-- page lengths of the spec's two-page example: 5 entries at offset 0, then
the remaining 2. -/
def exPageLen : Nat → Nat := fun b => if b = 0 then 5 else 2

/-! # Claims -/

/-- C1 counterexample: the Validation stage does not trim.  An item whose
title is a single space — empty after trimming, as witnessed by
`pyStrip` returning `[]` — passes validation, so the claim
"drops if and only if title, content, or url is empty after trimming"
is false at this input. -/
theorem c1_counterexample :
    validation_process_item (mkItem " " "body" "http" "a1") =
      .ok (mkItem " " "body" "http" "a1") ∧
    pyStrip (mkItem " " "body" "http" "a1").title.data = [] ∧
    (mkItem " " "body" "http" "a1").title ≠ "" := by decide

/-- C1 amended: the Validation stage drops a record exactly when its title,
content, or url is the empty string — no trimming, so whitespace-only fields
pass — and a record it drops leaves the sink state untouched in any chain
where Validation runs first, so such a record never reaches the document
store or the search index. -/
theorem c1_amended :
    ∀ (item : WxItem) (st : SinkState) (rest : List Stage)
      (indexCall : Except String Unit),
      ((∃ m, validation_process_item item = .dropped m) ↔
        (item.title = "" ∨ item.content = "" ∨ item.url = "")) ∧
      ((item.title = "" ∨ item.content = "" ∨ item.url = "") →
        (runChain (Stage.validation :: rest) st item indexCall).1 = st) := by
  intro item st rest indexCall
  have hiff : (∃ m, validation_process_item item = .dropped m) ↔
      (item.title = "" ∨ item.content = "" ∨ item.url = "") := by
    simp only [validation_process_item]
    split_ifs with h1 h2 h3 <;> simp_all
  refine ⟨hiff, fun hor => ?_⟩
  obtain ⟨m, hm⟩ := hiff.mpr hor
  simp only [runChain, runStage, hm]

theorem c1_amended_witness :
    (∃ m, validation_process_item (mkItem "" "c" "u" "a2") = .dropped m) ∧
    (runChain (Stage.validation :: [Stage.mongo, Stage.es]) emptySinks
      (mkItem "" "c" "u" "a2") (Except.ok ())).1 = emptySinks :=
  ⟨(c1_amended (mkItem "" "c" "u" "a2") emptySinks [Stage.mongo, Stage.es]
      (Except.ok ())).1.mpr (Or.inl rfl),
   (c1_amended (mkItem "" "c" "u" "a2") emptySinks [Stage.mongo, Stage.es]
      (Except.ok ())).2 (Or.inl rfl)⟩

/-- C2: evaluation of the document-store stage at two items with the same
`article_id`.  The store does end up with exactly one copy and the second
item is dropped (first-write-wins holds), but the duplicate `DropItem` is
caught by the stage's own blanket `except`, logged through
`spider.logger.error('Error saving to MongoDB: ...')`, and re-raised wrapped
in the store-error message — so the duplicate drop IS recorded as a store
error, contradicting the claim's last conjunct. -/
theorem c2_duplicate_logged_as_store_error :
    (mongo_process_item emptySinks (mkItem "A" "ca" "u1" "id1")).2 =
      .ok (mkItem "A" "ca" "u1" "id1") ∧
    (mongo_process_item
      (mongo_process_item emptySinks (mkItem "A" "ca" "u1" "id1")).1
      (mkItem "B" "cb" "u2" "id1")).1.store = [mkItem "A" "ca" "u1" "id1"] ∧
    (mongo_process_item
      (mongo_process_item emptySinks (mkItem "A" "ca" "u1" "id1")).1
      (mkItem "B" "cb" "u2" "id1")).2 =
      .dropped "Error saving item to MongoDB: Duplicate item found: B" ∧
    (mongo_process_item
      (mongo_process_item emptySinks (mkItem "A" "ca" "u1" "id1")).1
      (mkItem "B" "cb" "u2" "id1")).1.mongoLog =
      ["Error saving to MongoDB: Duplicate item found: B"] := by decide

/-- C3: a failing search-index write is swallowed — the stage returns the
record unchanged (never raises) for every outcome of the `es.index` call,
and on failure neither the index nor the store is touched. -/
theorem c3_index_failure_swallowed :
    ∀ (st : SinkState) (item : WxItem) (indexCall : Except String Unit)
      (e : String),
      (es_process_item st item indexCall).2 = .ok item ∧
      (es_process_item st item (Except.error e)).1.searchIdx = st.searchIdx ∧
      (es_process_item st item (Except.error e)).1.store = st.store := by
  intro st item indexCall e
  refine ⟨?_, rfl, rfl⟩
  cases indexCall <;> rfl

/-- C4: the pagination cursor advances by exactly the number of entries
returned (`next = begin + returned_count`), a next page is requested iff
`begin + returned_count < total_count`, the iteration issues at most
`total - begin + 1` requests (finite termination for finite totals), and for
page size 5 with `total_count = 7` the issued offsets are 0 then 5. -/
theorem c4_pagination :
    (∀ b n total, (nextBegin b n total).isSome = true ↔ b + n < total) ∧
    (∀ b n total v, nextBegin b n total = some v → v = b + n) ∧
    (∀ pageLen total b,
      (crawlBegins pageLen total b).length ≤ total - b + 1) ∧
    crawlBegins exPageLen 7 0 = [0, 5] := by
  refine ⟨?_, ?_, ?_, ?_⟩
  · intro b n total
    by_cases h : b + n < total <;> simp [nextBegin, h]
  · intro b n total v h
    by_cases hc : b + n < total
    · simp only [nextBegin, if_pos hc, Option.some.injEq] at h
      exact h.symm
    · simp [nextBegin, hc] at h
  · intro pageLen total b
    exact crawlBegins_length pageLen total (total - b) b le_rfl
  · rw [crawlBegins]
    rw [dif_pos (by norm_num [exPageLen])]
    norm_num [exPageLen]
    rw [crawlBegins]
    rw [dif_neg (by norm_num [exPageLen])]

theorem c4_pagination_witness :
    5 = 0 + 5 ∧ (nextBegin 0 5 7).isSome = true :=
  ⟨c4_pagination.2.1 0 5 7 5 (by decide),
   (c4_pagination.1 0 5 7).mpr (by decide)⟩

/-- C5 counterexample: when no keyword matches, the classifier returns the
string `'其他'`, not the claim's literal `"other"`. -/
theorem c5_counterexample :
    categorize_article "xyz" "" = "其他" ∧
    categorize_article "xyz" "" ≠ "other" := by decide

/-- C5 amended: the classifier returns the first category in the fixed table
order any of whose keywords occurs as a substring of the lowercased
`title + " " + description`, with default `'其他'` (the Chinese word for
"other") when no keyword matches; in particular
`categorize_article "工具开发技巧" ""` is `"技术"`. -/
theorem c5_amended :
    (∀ title description : String,
      categorize_article title description =
        (specFirstCategory title description).getD "其他") ∧
    categorize_article "工具开发技巧" "" = "技术" ∧
    categorize_article "xyzq" "" = "其他" := by
  refine ⟨?_, by decide, by decide⟩
  intro t d
  show (firstCat categoriesTable (((t ++ " " ++ d).data).map lowerC)).getD "其他" =
    ((categoriesTable.find?
      (fun p => p.2.any (fun k => isSub k.data (((t ++ " " ++ d).data).map lowerC)))).map
        Prod.fst).getD "其他"
  rw [firstCat_eq_find?]

/-- C6 counterexample: the claim quantifies over every raw HTML input, but
when the visible text after the script block equals the script body, the
output does contain the script body's literal text.  Here the input is
`<script>hi</script>hi`, the normalized output is `hi`, and the script body
`hi` is a substring of it. -/
theorem c6_counterexample :
    clean_html_content "<script>hi</script>hi".data = "hi".data ∧
    isSub "hi".data (clean_html_content "<script>hi</script>hi".data) = true := by
  decide

/-- C6 amended: the script pass runs before generic tag stripping and
excises the whole block — for a script body containing no `<`, the
normalized output of `<script>body</script>rest` equals the normalized
output of `rest` alone; consequently the output contains no occurrence of
the script body unless the surrounding text already produces one. -/
theorem c6_amended :
    ∀ (b rest : List Char), '<' ∉ b →
      clean_html_content
        ("<script>".data ++ (b ++ ("</script>".data ++ rest))) =
        clean_html_content rest ∧
      (isSub b (clean_html_content rest) = false →
        isSub b (clean_html_content
          ("<script>".data ++ (b ++ ("</script>".data ++ rest)))) = false) := by
  intro b rest hb
  have h := clean_script_excision b rest hb
  refine ⟨h, fun hn => ?_⟩
  rw [h]
  exact hn

theorem c6_amended_witness :
    clean_html_content
      ("<script>".data ++ ("var x = 1;".data ++ ("</script>".data ++ "Visible".data))) =
      clean_html_content "Visible".data :=
  (c6_amended "var x = 1;".data "Visible".data (by decide)).1

/-- C7: the normalizer is idempotent on already-clean input, formalizing
"contains no HTML tags" as containing no `<` character: none of the tag
passes can fire, and collapsing blank runs then stripping is idempotent. -/
theorem c7_normalizer_idempotent :
    ∀ l : List Char, '<' ∉ l →
      clean_html_content (clean_html_content l) = clean_html_content l :=
  fun _ h => clean_idem h

theorem c7_normalizer_idempotent_witness :
    ('<' ∉ "a \n\n \n b".data) ∧
    clean_html_content (clean_html_content "a \n\n \n b".data) =
      clean_html_content "a \n\n \n b".data :=
  ⟨by decide, c7_normalizer_idempotent "a \n\n \n b".data (by decide)⟩

/-- C8: whatever the outcome of the content fetch/extraction — parsed
content, no matching selector, or an exception inside the parse — the
coordinator yields exactly one item, and that item keeps every listing
field; in the exception case the partial item is forwarded unchanged. -/
theorem c8_partial_record_forwarded :
    ∀ (item : WxItem) (o : ContentOutcome) (now : Nat),
      (parse_article_content item o now).length = 1 ∧
      (∀ x ∈ parse_article_content item o now,
        x.title = item.title ∧ x.description = item.description ∧
        x.url = item.url ∧ x.article_id = item.article_id ∧
        x.read_count = item.read_count ∧ x.like_count = item.like_count ∧
        x.comment_count = item.comment_count) ∧
      parse_article_content item ContentOutcome.exn now = [item] := by
  intro item o now
  refine ⟨by cases o <;> rfl, ?_, rfl⟩
  intro x hx
  cases o with
  | found raw imgs vids =>
    simp only [parse_article_content, List.mem_singleton] at hx
    subst hx
    exact ⟨rfl, rfl, rfl, rfl, rfl, rfl, rfl⟩
  | noContent =>
    simp only [parse_article_content, List.mem_singleton] at hx
    subst hx
    exact ⟨rfl, rfl, rfl, rfl, rfl, rfl, rfl⟩
  | exn =>
    simp only [parse_article_content, List.mem_singleton] at hx
    subst hx
    exact ⟨rfl, rfl, rfl, rfl, rfl, rfl, rfl⟩

theorem c8_partial_record_forwarded_witness :
    parse_article_content (mkItem "T" "" "u" "a9") ContentOutcome.exn 5 =
      [mkItem "T" "" "u" "a9"] ∧
    (mkItem "T" "" "u" "a9").title = (mkItem "T" "" "u" "a9").title :=
  ⟨(c8_partial_record_forwarded (mkItem "T" "" "u" "a9")
      ContentOutcome.exn 5).2.2,
   ((c8_partial_record_forwarded (mkItem "T" "" "u" "a9")
      ContentOutcome.exn 5).2.1 (mkItem "T" "" "u" "a9") (by decide)).1⟩

/-- C9: evaluation of the coordinator at a 3-article run with no failures.
`total_articles` is initialized to 0 and never assigned anywhere in `app.py`,
so each per-item event computes `crawled / max(0, 1) * 100`: the emitted
progress values are 100, 200, 300 (with `total = 0` in every event), not the
claimed 33.3, 66.7, 100.0 with total 3; the final completed event does carry
progress 100.  Moreover no rounding to one decimal exists in the code:
100 ≠ 33.3 = 333/10. -/
theorem c9_progress_run3 :
    (crawlRunEvents ["t1", "t2", "t3"]).map (fun e => e.progress) =
      [100, 200, 300, 100] ∧
    (crawlRunEvents ["t1", "t2", "t3"]).map (fun e => e.total) = [0, 0, 0, 0] ∧
    (crawlRunEvents ["t1", "t2", "t3"]).map (fun e => e.status) =
      ["crawling", "crawling", "crawling", "completed"] ∧
    (100 : ℚ) ≠ 333 / 10 := by
  refine ⟨?_, ?_, ?_, by norm_num⟩ <;>
    norm_num [crawlRunEvents, runItems, spider_process_item, start_crawling,
      initManager, completedEvent]

/-- C10: the crawl started through the control surface installs exactly the
document-store stage followed by the search-index stage — no Validation and
no Cleaning — and every yielded item with a fresh `article_id` (empty content
and unparsed statistics included, since nothing filters or coerces it) is
written to both sinks unchanged. -/
theorem c10_app_pipeline_chain :
    appItemPipelines = [Stage.mongo, Stage.es] ∧
    Stage.validation ∉ appItemPipelines ∧
    Stage.cleaning ∉ appItemPipelines ∧
    ∀ (st : SinkState) (item : WxItem),
      st.store.find? (fun x => x.article_id = item.article_id) = none →
      runChain appItemPipelines st item (Except.ok ()) =
        ({ st with
            store := st.store ++ [item],
            searchIdx := esUpsert st.searchIdx item }, .ok item) := by
  refine ⟨rfl, by decide, by decide, ?_⟩
  intro st item h
  simp only [appItemPipelines, runChain, runStage, mongo_process_item, h,
    es_process_item]

/-- concrete item with empty content and an unparsed statistics value. -/
def unparsedItem : WxItem :=
  { mkItem "T" "" "u" "idZ" with
      read_count := .str "12k" }

theorem c10_app_pipeline_chain_witness :
    runChain appItemPipelines emptySinks unparsedItem (Except.ok ()) =
      ({ emptySinks with
          store := emptySinks.store ++ [unparsedItem],
          searchIdx := esUpsert emptySinks.searchIdx unparsedItem },
       .ok unparsedItem) :=
  c10_app_pipeline_chain.2.2.2 emptySinks unparsedItem (by decide)

end WinXinCrawler
